import Mathlib

/-!
# VisionVault: verification of the core algorithms

Shallow embedding of the algorithmic core of the VisionVault video-search
service, together with proofs about it:

* `src/processing/chunking.py` — `align_transcript_and_captions`, the chunk
  aligner fusing transcript segments with frame captions;
* `src/processing/pipeline.py` — `_filter_hits`, the adaptive result cutoff of
  the retrieval engine, and the stage-boundary cancellation protocol of
  `ingest_video` / `request_cancel_ingest`;
* `src/vectorstore/qdrant_store.py` — point-identifier normalization
  (`_as_qdrant_point_id`) and dimension-namespaced collection naming.

Python floats are modelled as rationals (`ℚ`), Python ints as `ℤ`/`ℕ`, Python
strings as Lean `String`/`List Char`.  Pure collaborators (the uuid5 hash, the
captioning model) are modelled as explicit function parameters.
-/

namespace VisionVault

/-! ## Retrieval engine: `_filter_hits` (src/processing/pipeline.py 197-224) -/

/-- A search hit.  In the source a hit is a dict carrying the raw similarity
`score` and, when the reranker ran, a `rerank_score`; the `id` field stands for
the rest of the payload (it lets us tell hits apart). -/
structure Hit where
  id : ℕ
  score : ℚ
  rerank_score : Option ℚ
deriving Repr, DecidableEq

/-- Model of `_effective_score` (pipeline.py 190-195): prefer the reranker score when
present, else the raw score.  (The source's `or 0.0` only turns a `None` stored
under the key into `0.0`; a hit that lacks both keys scores `0.0`, which the
`score` field with default absent-as-`0` models.) -/
def effectiveScore (h : Hit) : ℚ :=
  match h.rerank_score with
  | some r => r
  | none => h.score

/-- The accumulation loop of `_filter_hits` (pipeline.py 207-220), with the
Python mutable state made explicit: `prev` is the previously accumulated
score (initially `best`), `out` the accumulated output.

```python
for h, s in zip(hits_in, scores):
    if s < min_score:
        continue
    if s < best * relative_min:
        break
    if (prev - s) >= dropoff_gap:
        break
    out.append(h)
    prev = s
    if len(out) >= k:
        break
```
-/
def filterGo (min_score relative_min dropoff_gap best : ℚ) (k : ℕ) :
    List Hit → ℚ → List Hit → List Hit
  | [], _, out => out
  | h :: hs, prev, out =>
    let s := effectiveScore h
    if s < min_score then filterGo min_score relative_min dropoff_gap best k hs prev out
    else if s < best * relative_min then out
    else if dropoff_gap ≤ prev - s then out
    else
      let out' := out ++ [h]
      if k ≤ out'.length then out'
      else filterGo min_score relative_min dropoff_gap best k hs s out'

/-- Model of `_filter_hits` (pipeline.py 197-224).  `k` is `top_k` (a non-negative int:
Python list slicing with a non-negative bound is `List.take`);
`min_return_hits` is an int.  `hits_in[: min(k, max(min_return_hits, 0))]`
becomes `take (min k (max min_return_hits 0).toNat)`. -/
def filterHits (min_score relative_min dropoff_gap : ℚ) (min_return_hits : ℤ)
    (hits_in : List Hit) (k : ℕ) : List Hit :=
  match hits_in with
  | [] => []
  | h0 :: _ =>
    let best := effectiveScore h0
    if best ≤ 0 then hits_in.take (min k (max min_return_hits 0).toNat)
    else
      let out := filterGo min_score relative_min dropoff_gap best k hits_in best []
      if (out.length : ℤ) < min_return_hits then
        hits_in.take (min k (max min_return_hits 0).toNat)
      else out

/-- The adaptive-cutoff walk as the spec describes it (claim side, for
comparison with `filterGo`): walk candidates in order; a candidate whose
effective score is below `min_score` is *skipped*; accumulation stops at the
first candidate whose score falls below `best * relative_min` or whose drop
from the previously accumulated score reaches `dropoff_gap`, or once `top_k`
items have been collected.  `cnt` counts the items accumulated so far. -/
def cutoffWalk (min_score relative_min dropoff_gap best : ℚ) (k : ℕ) :
    List Hit → ℚ → ℕ → List Hit
  | [], _, _ => []
  | h :: hs, prev, cnt =>
    let s := effectiveScore h
    if s < min_score then cutoffWalk min_score relative_min dropoff_gap best k hs prev cnt
    else if best * relative_min ≤ s ∧ prev - s < dropoff_gap then
      if k ≤ cnt + 1 then [h]
      else h :: cutoffWalk min_score relative_min dropoff_gap best k hs s (cnt + 1)
    else []

/-! ## Chunk aligner: `align_transcript_and_captions`
(src/processing/chunking.py 21-53) -/

/-- One entry of the `frame_desc` list built in `ingest_video`
(pipeline.py 118-122): a frame filename, its timestamp, its caption. -/
structure FrameDesc where
  frame_file : String
  timestamp : ℚ
  caption : String
deriving Repr, DecidableEq

/-- One transcript segment `{start, end, text}` (chunking.py reads
`seg["start"]`, `seg["end"]`, `seg.get("text")`). -/
structure Seg where
  start : ℚ
  end_ : ℚ
  text : String
deriving Repr, DecidableEq

/-- The `Chunk` dataclass (chunking.py 7-18). -/
structure Chunk where
  video_id : String
  start : ℚ
  end_ : ℚ
  transcript : String
  caption : String
  frame_file : String
deriving Repr, DecidableEq

/-- The sort key `abs(x["timestamp"] - mid)` of the fallback
`sorted(frame_descriptions, key=...)` (chunking.py 34-37). -/
def midKey (mid : ℚ) (f : FrameDesc) : ℚ := |f.timestamp - mid|

/-- The ordering Python's stable `sorted` applies with that key. -/
def frameLE (mid : ℚ) (a b : FrameDesc) : Bool := decide (midKey mid a ≤ midKey mid b)

/-- Model of `[f for f in frame_descriptions if f["timestamp"] >= s and f["timestamp"] <= e]`
(chunking.py 30-32). -/
def overlapsOf (s e : ℚ) (frames : List FrameDesc) : List FrameDesc :=
  frames.filter (fun f => decide (s ≤ f.timestamp ∧ f.timestamp ≤ e))

/-- The selected frames of one segment (chunking.py 30-37): the in-range
frames, or — when none overlap — the stable sort by distance to the midpoint,
truncated to one element.  Python's `sorted` is stable; `List.mergeSort` is
the stable sort. -/
def selectFrames (s e : ℚ) (frames : List FrameDesc) : List FrameDesc :=
  let overlaps := overlapsOf s e frames
  if overlaps.isEmpty then (frames.mergeSort (frameLE ((s + e) / 2))).take 1
  else overlaps

/-- Model of `align_transcript_and_captions` (chunking.py 21-53).  One chunk per
segment, in order; caption is the `" | "`-join of the selected frames'
captions; the representative frame is the first selected frame, or `""` when
none. -/
def align_transcript_and_captions (video_id : String) (transcript_segments : List Seg)
    (frame_descriptions : List FrameDesc) : List Chunk :=
  transcript_segments.map fun seg =>
    let s := seg.start
    let e := seg.end_
    let overlaps := selectFrames s e frame_descriptions
    { video_id := video_id
      start := s
      end_ := e
      transcript := seg.text.trim
      caption := String.intercalate " | " (overlaps.map (·.caption))
      frame_file := match overlaps with
        | [] => ""
        | f :: _ => f.frame_file }

/-- Claim-side definition, following the spec's words: the frame description
whose timestamp is nearest to `mid`, ties broken in favour of the frame
earliest in the original sequence (a later frame replaces the current choice
only when it is *strictly* nearer). -/
def nearestFrame (mid : ℚ) : List FrameDesc → Option FrameDesc
  | [] => none
  | f :: fs =>
    match nearestFrame mid fs with
    | none => some f
    | some g => if midKey mid g < midKey mid f then some g else some f

/-- Claim-side frame selection: every frame whose timestamp lies in `[s, e]`
inclusive; if none qualify, the single nearest-to-midpoint frame (ties to the
earliest), or nothing when the frame list is empty. -/
def selectFramesSpec (s e : ℚ) (frames : List FrameDesc) : List FrameDesc :=
  let overlaps := overlapsOf s e frames
  if overlaps.isEmpty then
    match nearestFrame ((s + e) / 2) frames with
    | none => []
    | some f => [f]
  else overlaps

/-- Claim-side aligner: one chunk per segment in input order, with the
segment's `start`/`end`, the trimmed segment text, the `" | "`-joined captions
of the spec-selected frames, and the first selected frame as representative. -/
def alignSpec (video_id : String) (transcript_segments : List Seg)
    (frame_descriptions : List FrameDesc) : List Chunk :=
  transcript_segments.map fun seg =>
    let sel := selectFramesSpec seg.start seg.end_ frame_descriptions
    { video_id := video_id
      start := seg.start
      end_ := seg.end_
      transcript := seg.text.trim
      caption := String.intercalate " | " (sel.map (·.caption))
      frame_file := match sel with
        | [] => ""
        | f :: _ => f.frame_file }

/-! ## Ingest captioning stage (src/processing/pipeline.py 116-124) and
frame timestamps (src/processing/extract_frames.py 52-59) -/

/-- An extracted frame file: its filename and the 1-based ordinal parsed back
from the name by `parse_frame_number` (`frame_%06d.jpg`). -/
structure FrameFile where
  name : String
  number : ℕ
deriving Repr, DecidableEq

/-- Model of `frame_number_to_timestamp_seconds` (extract_frames.py 52-54):
`max(0.0, (frame_number - 1) / fps)`. -/
def frame_number_to_timestamp_seconds (frame_number : ℕ) (fps : ℚ) : ℚ :=
  max 0 (((frame_number : ℚ) - 1) / fps)

/-- Model of `cap_map = \x7b\x7d if not enable_captions else caption_frames(frame_files)`
(pipeline.py 117).  The captioning collaborator is modelled by the pure
function `captioner`; it is consulted only when `enable_captions` is true. -/
def capMap (enable_captions : Bool) (captioner : String → String)
    (frame_files : List FrameFile) : List (String × String) :=
  if ¬ enable_captions then [] else frame_files.map fun fp => (fp.name, captioner fp.name)

/-- Model of `cap_map.get(fp.name, "")`: association-list lookup with default `""`. -/
def capMapGet (m : List (String × String)) (key : String) : String :=
  match m.find? (fun p => p.1 == key) with
  | some p => p.2
  | none => ""

/-- The `frame_desc` list built by `ingest_video` (pipeline.py 118-122). -/
def buildFrameDesc (enable_captions : Bool) (captioner : String → String)
    (frame_files : List FrameFile) (fps : ℚ) : List FrameDesc :=
  let cap_map := capMap enable_captions captioner frame_files
  frame_files.map fun fp =>
    { frame_file := fp.name
      timestamp := frame_number_to_timestamp_seconds fp.number fps
      caption := capMapGet cap_map fp.name }

/-- The caption/alignment stages of `ingest_video` composed
(pipeline.py 116-124): build `frame_desc`, then align. -/
def ingestChunks (video_id : String) (transcript : List Seg) (enable_captions : Bool)
    (captioner : String → String) (frame_files : List FrameFile) (fps : ℚ) : List Chunk :=
  align_transcript_and_captions video_id transcript
    (buildFrameDesc enable_captions captioner frame_files fps)

/-! ## Cancellation protocol (src/processing/pipeline.py 21-33, 48-165) -/

/-- How an ingest run ends. -/
inductive IngestOutcome
  | completed
  | cancelled
deriving Repr, DecidableEq

/-- Model of `request_cancel_ingest` (pipeline.py 26-28): sets the shared flag. -/
def request_cancel_ingest (_flag : Bool) : Bool := true

/-- The flag value `_check_cancel` observes at stage boundary `i`
(0-based, in source order): true iff some in-run cancel request arrived at or
before boundary `i`.  `req j = true` means a cancel request arrives after the
run's initial reset and before boundary `j`. -/
def flagAt (req : ℕ → Bool) (i : ℕ) : Bool := (List.range (i + 1)).any req

/-- The cancellation skeleton of `ingest_video` (pipeline.py 48-165).
`initialFlag` is the value of the shared `_CANCEL_INGEST` when the ingest
starts; line 56 resets it to `False`, so it is discarded.  The run then passes
the seven `_check_cancel()` stage boundaries that precede the vector-store
upsert (lines 90, 100, 106, 112, 116, 141, 150); if any observes the flag the
run aborts as `cancelled` with `0` vector-store writes, otherwise the upsert
performs the single write and the run completes (the eighth check, line 159,
sits inside the best-effort secondary-index `try` block after the write). -/
def ingestRun (initialFlag : Bool) (req : ℕ → Bool) : IngestOutcome × ℕ :=
  match (List.range 7).find? (fun i => flagAt req i) with
  | some _ => (IngestOutcome.cancelled, 0)
  | none => (IngestOutcome.completed, 1)

/-! ## Networked vector store (src/vectorstore/qdrant_store.py) -/

/-- Decimal rendering of a natural number, most significant digit first — the
model of the f-string interpolation `f"{base}_d{self.dim}"`
(qdrant_store.py 54). -/
def natDecimalDigits (n : ℕ) : List Char :=
  if h : n < 10 then [Nat.digitChar n]
  else natDecimalDigits (n / 10) ++ [Nat.digitChar (n % 10)]
decreasing_by exact Nat.div_lt_self (by omega) (by omega)

/-- The dimension-namespaced collection name `f"{base}_d{self.dim}"`
(qdrant_store.py 53-54). -/
def collectionName (base : String) (dim : ℕ) : String :=
  base ++ "_d" ++ String.mk (natDecimalDigits dim)

/-- The state `QdrantStore.__init__` establishes (qdrant_store.py 44-55):
the store's dimension and the collection name every subsequent `upsert`
(line 131) and `search` (line 144) uses. -/
structure QdrantStore where
  dim : ℕ
  collection : String
deriving Repr, DecidableEq

/-- Model of `QdrantStore.__init__` with the process-wide base collection name
(`DEFAULT_COLLECTION`, qdrant_store.py 19, one value per process). -/
def QdrantStore.init (base : String) (dim : ℕ) : QdrantStore :=
  { dim := dim, collection := collectionName base dim }

/-- Reading a decimal digit string back (proof device for injectivity). -/
def decValue (ds : List Char) : ℕ :=
  ds.foldl (fun acc c => 10 * acc + (c.toNat - 48)) 0

/-! ## Point identifier normalization: `_as_qdrant_point_id`
(src/vectorstore/qdrant_store.py 90-128) -/

/-- A Qdrant point id: unsigned integer or (UUID) string. -/
inductive PointId
  | int (n : ℕ)
  | str (s : String)
deriving Repr, DecidableEq

/-- Python `str.strip()`: remove leading and trailing whitespace. -/
def pyStrip (l : List Char) : List Char :=
  ((l.dropWhile Char.isWhitespace).reverse.dropWhile Char.isWhitespace).reverse

/-- Python `str.replace(p0 :: ps, "")`: delete every left-to-right,
non-overlapping occurrence of the (non-empty) pattern.  `fuel`, initialised to
the list length, only discharges termination; it never runs out. -/
def deleteAllAux (p0 : Char) (ps : List Char) : ℕ → List Char → List Char
  | _, [] => []
  | 0, l => l
  | fuel + 1, c :: cs =>
    if (p0 :: ps).isPrefixOf (c :: cs) then deleteAllAux p0 ps fuel (cs.drop ps.length)
    else c :: deleteAllAux p0 ps fuel cs

/-- Python `str.replace(p0 :: ps, "")`. -/
def deleteAll (p0 : Char) (ps : List Char) (l : List Char) : List Char :=
  deleteAllAux p0 ps l.length l

/-- The brace characters `str.strip` removes for the argument `'{}'`
(written by code point). -/
def isBrace (c : Char) : Bool := c == '\x7b' || c == '\x7d'

/-- Python `str.strip('{}')`. -/
def stripBraces (l : List Char) : List Char :=
  ((l.dropWhile isBrace).reverse.dropWhile isBrace).reverse

/-- The digits Python's `int(s, 16)` accepts (its tolerance of single `_`
separators and a leading sign is not modelled). -/
def isHexChar (c : Char) : Bool :=
  c.isDigit || ('a' ≤ c && c ≤ 'f') || ('A' ≤ c && c ≤ 'F')

/-- Value of one hex digit (either case). -/
def hexDigitVal (c : Char) : ℕ :=
  if c.toNat ≤ 57 then c.toNat - 48
  else if 97 ≤ c.toNat then c.toNat - 87
  else c.toNat - 55

/-- Model of `int(hex, 16)` over the 32 digits. -/
def fromHex (ds : List Char) : ℕ := ds.foldl (fun n c => 16 * n + hexDigitVal c) 0

/-- Model of `'%032x' % n` for `n < 16^w`: exactly `w` lowercase hex digits, most
significant first. -/
def toHexPad : ℕ → ℕ → List Char → List Char
  | 0, _, acc => acc
  | w + 1, n, acc => toHexPad w (n / 16) (Nat.digitChar (n % 16) :: acc)

/-- Model of `str(uuid.UUID(...))`: the 32 hex digits sliced `8-4-4-4-12` with
hyphens. -/
def uuidFormat (h32 : List Char) : List Char :=
  h32.take 8 ++ '-' :: ((h32.drop 8).take 4 ++ '-' :: ((h32.drop 12).take 4
    ++ '-' :: ((h32.drop 16).take 4 ++ '-' :: h32.drop 20)))

/-- Model of `str(uuid.UUID(s))` (qdrant_store.py 116), i.e. CPython's
`uuid.UUID(hex=s)` constructor followed by `str`: strip `urn:` and `uuid:`
occurrences, strip surrounding braces, delete hyphens, require exactly 32 hex
digits, then reformat canonically (lowercase, hyphenated).  `none` models the
`ValueError` path (line 117-118). -/
def pyUuidCanonical (l : List Char) : Option String :=
  let hex1 := deleteAll 'u' ['r', 'n', ':'] l
  let hex2 := deleteAll 'u' ['u', 'i', 'd', ':'] hex1
  let hex3 := stripBraces hex2
  let hex4 := hex3.filter (fun c => !(c == '-'))
  if hex4.length = 32 ∧ hex4.all isHexChar then
    some (String.mk (uuidFormat (toHexPad 32 (fromHex hex4) [])))
  else none

/-- Python `s.isdigit()` (ASCII digits). -/
def pyIsDigit (l : List Char) : Bool := !l.isEmpty && l.all Char.isDigit

/-- Python `int(s)` for a digit string. -/
def strToNat (l : List Char) : ℕ := l.foldl (fun n c => 10 * n + (c.toNat - 48)) 0

/-- Model of the fallback key `f"..."` joining video_id, start, end and index with colons (qdrant_store.py 123-127). -/
def fallbackKey (video_id : String) (start end_ : ℚ) (i : ℕ) : String :=
  video_id ++ ":" ++ toString start ++ ":" ++ toString end_ ++ ":" ++ toString i

/-- Model of `_as_qdrant_point_id` (qdrant_store.py 90-118) for a string-or-absent
supplied id.  `uuid5` models the pure hash `uuid.uuid5(uuid.NAMESPACE_URL, ·)`
as an explicit function parameter. -/
def as_qdrant_point_id (uuid5 : String → String) (raw : Option String)
    (fallback_key : String) : PointId :=
  match raw with
  | none => .str (uuid5 fallback_key)
  | some r =>
    let s := pyStrip r.data
    if s.isEmpty then .str (uuid5 fallback_key)
    else if pyIsDigit s then .int (strToNat s)
    else
      match pyUuidCanonical s with
      | some u => .str u
      | none => .str (uuid5 fallback_key)

/-- The sixteen lowercase hex digits. -/
def lowerHexChars : List Char :=
  ['0', '1', '2', '3', '4']
    ++ ['5', '6', '7', '8', '9']
    ++ ['a', 'b', 'c', 'd', 'e', 'f']

/-- Claim-side: a lowercase hex digit. -/
def isLowerHex (c : Char) : Bool :=
  decide (c ∈ lowerHexChars)

/-- Claim-side: the canonical lowercase hyphenated `8-4-4-4-12` UUID string
built from its five digit groups. -/
def canonicalUuid (a b c d e : List Char) : String :=
  String.mk (a ++ '-' :: (b ++ '-' :: (c ++ '-' :: (d ++ '-' :: e))))

/-! ## Theorems -/

/-- Accumulator elimination: the Python loop of `_filter_hits`, which mutates
`out`, computes exactly the direct walk `cutoffWalk`. -/
theorem filterGo_eq_cutoffWalk (min_score relative_min dropoff_gap best : ℚ) (k : ℕ) :
    ∀ (l : List Hit) (prev : ℚ) (out : List Hit),
      filterGo min_score relative_min dropoff_gap best k l prev out
        = out ++ cutoffWalk min_score relative_min dropoff_gap best k l prev out.length := by
  intro l
  induction l with
  | nil => intro prev out; simp [filterGo, cutoffWalk]
  | cons h hs ih =>
    intro prev out
    simp only [filterGo, cutoffWalk]
    by_cases h1 : effectiveScore h < min_score
    · simp only [h1, if_true, ih]
    · simp only [h1, if_false]
      by_cases h2 : effectiveScore h < best * relative_min
      · have h2' : ¬ (best * relative_min ≤ effectiveScore h ∧
            prev - effectiveScore h < dropoff_gap) := fun hc => absurd hc.1 (not_le.mpr h2)
        simp [h2, h2']
      · by_cases h3 : dropoff_gap ≤ prev - effectiveScore h
        · have h3' : ¬ (best * relative_min ≤ effectiveScore h ∧
              prev - effectiveScore h < dropoff_gap) := fun hc => absurd hc.2 (not_lt.mpr h3)
          simp [h2, h3, h3']
        · have hcond : best * relative_min ≤ effectiveScore h ∧
              prev - effectiveScore h < dropoff_gap := ⟨not_lt.mp h2, not_le.mp h3⟩
          simp only [h2, if_false, h3, if_false, hcond, if_true]
          by_cases h4 : k ≤ (out ++ [h]).length
          · have h4' : k ≤ out.length + 1 := by simpa using h4
            simp [h4, h4']
          · have h4' : ¬ k ≤ out.length + 1 := by simpa using h4
            simp only [h4, if_false, h4', ih]
            simp

/-- The walk only ever selects candidates from the input, in order. -/
theorem cutoffWalk_sublist (min_score relative_min dropoff_gap best : ℚ) (k : ℕ) :
    ∀ (l : List Hit) (prev : ℚ) (cnt : ℕ),
      List.Sublist (cutoffWalk min_score relative_min dropoff_gap best k l prev cnt) l := by
  intro l
  induction l with
  | nil => intro prev cnt; simp [cutoffWalk]
  | cons h hs ih =>
    intro prev cnt
    simp only [cutoffWalk]
    by_cases h1 : effectiveScore h < min_score
    · rw [if_pos h1]
      exact (ih prev cnt).cons h
    · rw [if_neg h1]
      by_cases h2 : best * relative_min ≤ effectiveScore h ∧
          prev - effectiveScore h < dropoff_gap
      · rw [if_pos h2]
        by_cases h3 : k ≤ cnt + 1
        · rw [if_pos h3]
          exact (List.nil_sublist hs).cons₂ h
        · rw [if_neg h3]
          exact (ih _ _).cons₂ h
      · rw [if_neg h2]
        exact List.nil_sublist _

/-- The walk never collects more than the remaining capacity `k - cnt`. -/
theorem cutoffWalk_length (min_score relative_min dropoff_gap best : ℚ) (k : ℕ) :
    ∀ (l : List Hit) (prev : ℚ) (cnt : ℕ), cnt < k →
      cnt + (cutoffWalk min_score relative_min dropoff_gap best k l prev cnt).length ≤ k := by
  intro l
  induction l with
  | nil => intro prev cnt hcnt; simp [cutoffWalk]; omega
  | cons h hs ih =>
    intro prev cnt hcnt
    simp only [cutoffWalk]
    by_cases h1 : effectiveScore h < min_score
    · rw [if_pos h1]
      exact ih prev cnt hcnt
    · rw [if_neg h1]
      by_cases h2 : best * relative_min ≤ effectiveScore h ∧
          prev - effectiveScore h < dropoff_gap
      · rw [if_pos h2]
        by_cases h3 : k ≤ cnt + 1
        · rw [if_pos h3]
          simp only [List.length_singleton]
          omega
        · rw [if_neg h3]
          simp only [List.length_cons]
          have := ih (effectiveScore h) (cnt + 1) (by omega)
          omega
      · rw [if_neg h2]
        simp only [List.length_nil]
        omega

/-- Claim C2: (amended).  For every ordered candidate list whose best (first)
effective score is positive, and whenever the walk collects at least
`min_return_hits` candidates, the adaptive cutoff output is exactly the
in-order walk that *skips* any candidate with effective score `< min_score`
and stops at the first candidate with score `< best * relative_min` or with
(previous accumulated score − current score) `≥ dropoff_gap`, or once `top_k`
items are collected (`cutoffWalk`).  In particular a candidate violating the
`min_score` condition is skipped rather than terminating the accumulation. -/
theorem filter_hits_walk_characterization
    (min_score relative_min dropoff_gap : ℚ) (min_return_hits : ℤ)
    (h0 : Hit) (rest : List Hit) (k : ℕ)
    (hbest : 0 < effectiveScore h0)
    (hmin : min_return_hits ≤ ((cutoffWalk min_score relative_min dropoff_gap
      (effectiveScore h0) k (h0 :: rest) (effectiveScore h0) 0).length : ℤ)) :
    filterHits min_score relative_min dropoff_gap min_return_hits (h0 :: rest) k
      = cutoffWalk min_score relative_min dropoff_gap (effectiveScore h0) k
          (h0 :: rest) (effectiveScore h0) 0 := by
  have hgo := filterGo_eq_cutoffWalk min_score relative_min dropoff_gap
    (effectiveScore h0) k (h0 :: rest) (effectiveScore h0) []
  simp only [List.nil_append, List.length_nil] at hgo
  simp only [filterHits]
  rw [if_neg (not_le.mpr hbest), hgo, if_neg (not_lt.mpr hmin)]

/-- Claim C2: witness: at the concrete input of the counterexample below, the
characterization applies and yields the skip behaviour. -/
theorem filter_hits_walk_characterization_witness :
    filterHits 0 (9/10) (2/25) 1
        [⟨1, 1, none⟩, ⟨2, -1/2, none⟩, ⟨3, 49/50, none⟩] 5
      = cutoffWalk 0 (9/10) (2/25) (effectiveScore ⟨1, 1, none⟩) 5
          [⟨1, 1, none⟩, ⟨2, -1/2, none⟩, ⟨3, 49/50, none⟩]
          (effectiveScore ⟨1, 1, none⟩) 0 :=
  filter_hits_walk_characterization 0 (9/10) (2/25) 1 ⟨1, 1, none⟩
    [⟨2, -1/2, none⟩, ⟨3, 49/50, none⟩] 5
    (of_decide_eq_true (by with_unfolding_all rfl))
    (of_decide_eq_true (by with_unfolding_all rfl))

/-- Claim C2: counterexample to the claim as stated: with default parameters the
second candidate's effective score `-1/2` violates the `min_score = 0`
condition, yet accumulation does not terminate there — the third candidate is
still returned.  (The claim as stated would force the output `[⟨1, 1, none⟩]`.) -/
theorem filter_hits_min_score_skip_cex :
    filterHits 0 (9/10) (2/25) 1
        [⟨1, 1, none⟩, ⟨2, -1/2, none⟩, ⟨3, 49/50, none⟩] 5
      = [⟨1, 1, none⟩, ⟨3, 49/50, none⟩] ∧
    effectiveScore ⟨2, -1/2, none⟩ < 0 ∧
    filterHits 0 (9/10) (2/25) 1
        [⟨1, 1, none⟩, ⟨2, -1/2, none⟩, ⟨3, 49/50, none⟩] 5
      ≠ [⟨1, 1, none⟩] := by
  refine ⟨by with_unfolding_all rfl, by norm_num [effectiveScore], ?_⟩
  rw [show filterHits 0 (9/10) (2/25) 1
      [⟨1, 1, none⟩, ⟨2, -1/2, none⟩, ⟨3, 49/50, none⟩] 5
    = [⟨1, 1, none⟩, ⟨3, 49/50, none⟩] from by with_unfolding_all rfl]
  simp

/-- Claim C3:.  With the default parameters (`min_score = 0`,
`relative_min = 0.90`, `dropoff_gap = 0.08`, `min_return_hits = 1`) and any
`top_k ≥ 3`, the cutoff applied to candidates with effective scores
`[0.95, 0.94, 0.93, 0.60, 0.55]` returns exactly the first three candidates in
order. -/
theorem filter_hits_literal_case (k : ℕ) (hk : 3 ≤ k) :
    filterHits 0 0.90 0.08 1
        [⟨1, 0.95, none⟩, ⟨2, 0.94, none⟩, ⟨3, 0.93, none⟩,
         ⟨4, 0.60, none⟩, ⟨5, 0.55, none⟩] k
      = [⟨1, 0.95, none⟩, ⟨2, 0.94, none⟩, ⟨3, 0.93, none⟩] := by
  rcases eq_or_lt_of_le hk with h3 | h4
  · subst h3
    with_unfolding_all rfl
  · obtain ⟨m, rfl⟩ : ∃ m, k = 4 + m := ⟨k - 4, by omega⟩
    have e1 : ¬ (4 + m ≤ 1) := by omega
    have e2 : ¬ (4 + m ≤ 2) := by omega
    have e3 : ¬ (4 + m ≤ 3) := by omega
    norm_num [filterHits, filterGo, effectiveScore, e1, e2, e3]

/-- Claim C3: witness at `top_k = 5`. -/
theorem filter_hits_literal_case_witness :
    filterHits 0 0.90 0.08 1
        [⟨1, 0.95, none⟩, ⟨2, 0.94, none⟩, ⟨3, 0.93, none⟩,
         ⟨4, 0.60, none⟩, ⟨5, 0.55, none⟩] 5
      = [⟨1, 0.95, none⟩, ⟨2, 0.94, none⟩, ⟨3, 0.93, none⟩] :=
  filter_hits_literal_case 5 (by decide)

/-- Claim C4: (amended).  For every non-empty candidate list and non-negative
`min_return_hits`: (a) if the first candidate's effective score is `≤ 0` the
cutoff returns the first `min(top_k, min_return_hits)` candidates
unconditionally; (b) whenever the threshold-filtered output would contain
fewer than `min_return_hits` entries, it is discarded and the first
`min(top_k, min_return_hits)` raw candidates are returned instead; (c) so a
non-empty pool never yields zero hits when `min_return_hits ≥ 1` — provided
additionally that `top_k ≥ 1`. -/
theorem filter_hits_min_return_guarantee
    (min_score relative_min dropoff_gap : ℚ) (min_return_hits : ℤ)
    (h0 : Hit) (rest : List Hit) (k : ℕ) (hm : 0 ≤ min_return_hits) :
    (effectiveScore h0 ≤ 0 →
      filterHits min_score relative_min dropoff_gap min_return_hits (h0 :: rest) k
        = (h0 :: rest).take (min k min_return_hits.toNat)) ∧
    (((filterGo min_score relative_min dropoff_gap (effectiveScore h0) k
          (h0 :: rest) (effectiveScore h0) []).length : ℤ) < min_return_hits →
      filterHits min_score relative_min dropoff_gap min_return_hits (h0 :: rest) k
        = (h0 :: rest).take (min k min_return_hits.toNat)) ∧
    (1 ≤ min_return_hits → 1 ≤ k →
      filterHits min_score relative_min dropoff_gap min_return_hits (h0 :: rest) k ≠ []) := by
  have hmax : (max min_return_hits 0).toNat = min_return_hits.toNat := by omega
  have htake : 1 ≤ min_return_hits → 1 ≤ k →
      (h0 :: rest).take (min k min_return_hits.toNat) ≠ [] := by
    intro h1 hk hcontra
    rw [List.take_eq_nil_iff] at hcontra
    rcases hcontra with hmin0 | habs
    · omega
    · exact List.cons_ne_nil h0 rest habs
  refine ⟨?_, ?_, ?_⟩
  · intro hb
    simp only [filterHits]
    rw [if_pos hb, hmax]
  · intro hlen
    simp only [filterHits]
    by_cases hb : effectiveScore h0 ≤ 0
    · rw [if_pos hb, hmax]
    · rw [if_neg hb, if_pos hlen, hmax]
  · intro h1 hk
    simp only [filterHits]
    by_cases hb : effectiveScore h0 ≤ 0
    · rw [if_pos hb, hmax]
      exact htake h1 hk
    · rw [if_neg hb]
      by_cases hlen : ((filterGo min_score relative_min dropoff_gap (effectiveScore h0) k
          (h0 :: rest) (effectiveScore h0) []).length : ℤ) < min_return_hits
      · rw [if_pos hlen, hmax]
        exact htake h1 hk
      · rw [if_neg hlen]
        intro hnil
        rw [hnil] at hlen
        simp only [List.length_nil, Nat.cast_zero] at hlen
        omega

/-- Claim C4: witness: with `min_return_hits = 2` and a non-positive best score,
the first `min(top_k, min_return_hits) = 2` raw candidates come back. -/
theorem filter_hits_min_return_guarantee_witness :
    (0 : ℤ) ≤ 2 ∧
    effectiveScore ⟨1, -1, none⟩ ≤ 0 ∧
    filterHits 0 (9/10) (2/25) 2 [⟨1, -1, none⟩, ⟨2, 1, none⟩, ⟨3, 1, none⟩] 5
      = [⟨1, -1, none⟩, ⟨2, 1, none⟩] :=
  ⟨by decide, of_decide_eq_true (by with_unfolding_all rfl), by
    rw [(filter_hits_min_return_guarantee 0 (9/10) (2/25) 2 ⟨1, -1, none⟩
        [⟨2, 1, none⟩, ⟨3, 1, none⟩] 5 (by decide)).1
        (of_decide_eq_true (by with_unfolding_all rfl))]
    with_unfolding_all rfl⟩

/-- Claim C4: counterexample to the parenthetical of the claim as stated: with
`top_k = 0` (which the claim does not exclude), a non-empty pool with
`min_return_hits = 1` yields zero hits — the first candidate fails the
`min_score = 2` threshold, the walk collects nothing, and the fallback slice
`hits[:min(0, 1)]` is empty. -/
theorem filter_hits_zero_topk_cex :
    filterHits 2 (9/10) (2/25) 1 [⟨1, 1, none⟩] 0 = [] ∧
    ([⟨1, 1, none⟩] : List Hit) ≠ [] := by
  exact ⟨by with_unfolding_all rfl, by simp⟩

/-- Claim C10:.  For every candidate list, parameter setting and `top_k ≥ 1`
(including `min_return_hits` larger than `top_k`), the cutoff returns a
subsequence of the input — elements drawn from the input in their original
relative order — of length at most `top_k`. -/
theorem filter_hits_sublist_and_bounded
    (min_score relative_min dropoff_gap : ℚ) (min_return_hits : ℤ)
    (hits : List Hit) (k : ℕ) (hk : 1 ≤ k) :
    List.Sublist (filterHits min_score relative_min dropoff_gap min_return_hits hits k) hits ∧
    (filterHits min_score relative_min dropoff_gap min_return_hits hits k).length ≤ k := by
  match hits with
  | [] => exact ⟨by simp [filterHits], by simp [filterHits]⟩
  | h0 :: rest =>
    have htake : List.Sublist ((h0 :: rest).take (min k (max min_return_hits 0).toNat))
          (h0 :: rest) ∧
        ((h0 :: rest).take (min k (max min_return_hits 0).toNat)).length ≤ k :=
      ⟨List.take_sublist _ _,
        le_trans (List.length_take_le _ _) (min_le_left _ _)⟩
    simp only [filterHits]
    by_cases hb : effectiveScore h0 ≤ 0
    · rw [if_pos hb]
      exact htake
    · rw [if_neg hb]
      by_cases hlen : ((filterGo min_score relative_min dropoff_gap (effectiveScore h0) k
          (h0 :: rest) (effectiveScore h0) []).length : ℤ) < min_return_hits
      · rw [if_pos hlen]
        exact htake
      · rw [if_neg hlen]
        have hgo := filterGo_eq_cutoffWalk min_score relative_min dropoff_gap
          (effectiveScore h0) k (h0 :: rest) (effectiveScore h0) []
        simp only [List.nil_append, List.length_nil] at hgo
        rw [hgo]
        constructor
        · exact cutoffWalk_sublist _ _ _ _ _ _ _ _
        · have := cutoffWalk_length min_score relative_min dropoff_gap
            (effectiveScore h0) k (h0 :: rest) (effectiveScore h0) 0 (by omega)
          omega

/-- Claim C10: witness: a case where `min_return_hits = 3` exceeds `top_k = 2`. -/
theorem filter_hits_sublist_and_bounded_witness :
    List.Sublist (filterHits 0 (9/10) (2/25) 3 [⟨1, -1, none⟩, ⟨2, 1, none⟩, ⟨3, 1, none⟩] 2)
      [⟨1, -1, none⟩, ⟨2, 1, none⟩, ⟨3, 1, none⟩] ∧
    (filterHits 0 (9/10) (2/25) 3 [⟨1, -1, none⟩, ⟨2, 1, none⟩, ⟨3, 1, none⟩] 2).length ≤ 2 :=
  filter_hits_sublist_and_bounded 0 (9/10) (2/25) 3
    [⟨1, -1, none⟩, ⟨2, 1, none⟩, ⟨3, 1, none⟩] 2 (by decide)

theorem frameLE_trans (mid : ℚ) (a b c : FrameDesc)
    (hab : frameLE mid a b) (hbc : frameLE mid b c) : frameLE mid a c := by
  simp only [frameLE, decide_eq_true_eq] at *
  exact le_trans hab hbc

theorem frameLE_total (mid : ℚ) (a b : FrameDesc) :
    frameLE mid a b || frameLE mid b a := by
  simp only [frameLE, Bool.or_eq_true, decide_eq_true_eq]
  exact le_total _ _

/-- The head of the stable sort by distance-to-midpoint is exactly the
earliest nearest frame. -/
theorem mergeSort_take_one (mid : ℚ) (frames : List FrameDesc) :
    (frames.mergeSort (frameLE mid)).take 1 = (nearestFrame mid frames).toList := by
  induction frames with
  | nil => simp [nearestFrame]
  | cons f fs ih =>
    obtain ⟨l₁, l₂, h₁, h₂, h₃⟩ :=
      List.mergeSort_cons (frameLE_trans mid) (frameLE_total mid) f fs
    cases l₁ with
    | nil =>
      simp only [List.nil_append] at h₁ h₂
      cases hfs : nearestFrame mid fs with
      | none =>
        rw [h₁]
        simp [nearestFrame, hfs]
      | some g =>
        rw [hfs, h₂] at ih
        cases l₂ with
        | nil => simp at ih
        | cons g' t =>
          simp only [List.take_succ_cons, List.take_zero, Option.toList_some] at ih
          obtain rfl : g' = g := by simpa using ih
          have hsorted := List.sorted_mergeSort (frameLE_trans mid) (frameLE_total mid) (f :: fs)
          rw [h₁] at hsorted
          have hfg : frameLE mid f g' = true :=
            List.rel_of_pairwise_cons hsorted (List.mem_cons_self g' t)
          have hle : midKey mid f ≤ midKey mid g' := by
            simpa [frameLE, decide_eq_true_eq] using hfg
          rw [h₁]
          simp [nearestFrame, hfs, if_neg (not_lt.mpr hle)]
    | cons b l₁' =>
      simp only [List.cons_append] at h₁ h₂
      rw [h₂] at ih
      simp only [List.take_succ_cons, List.take_zero] at ih
      have hb : nearestFrame mid fs = some b := by
        cases hfs : nearestFrame mid fs with
        | none => rw [hfs] at ih; simp at ih
        | some g =>
          rw [hfs] at ih
          simp only [Option.toList_some] at ih
          obtain rfl : b = g := by simpa using ih
          rfl
      have hlt : midKey mid b < midKey mid f := by
        have := h₃ b (List.mem_cons_self b l₁')
        simp only [frameLE, Bool.not_eq_true', decide_eq_false_iff_not, not_le] at this
        exact this
      rw [h₁]
      simp [nearestFrame, hb, if_pos hlt]

/-- Lemma: `nearestFrame` really is the earliest nearest frame: it occurs in the
list, no frame is strictly nearer to the midpoint, and every frame strictly
earlier in the sequence is strictly farther. -/
theorem nearestFrame_earliest_nearest (mid : ℚ) :
    ∀ (frames : List FrameDesc) (f : FrameDesc), nearestFrame mid frames = some f →
      ∃ i, ∃ hi : i < frames.length, frames[i] = f ∧
        (∀ g ∈ frames, midKey mid f ≤ midKey mid g) ∧
        ∀ j (hj : j < frames.length), j < i → midKey mid f < midKey mid frames[j] := by
  intro frames
  induction frames with
  | nil => intro f h; simp [nearestFrame] at h
  | cons f0 fs ih =>
    intro f h
    rw [nearestFrame] at h
    cases hfs : nearestFrame mid fs with
    | none =>
      rw [hfs] at h
      obtain rfl : f0 = f := by simpa using h
      have hnil : fs = [] := by
        cases fs with
        | nil => rfl
        | cons a as =>
          rw [nearestFrame] at hfs
          rcases hx : nearestFrame mid as with _ | g
          · rw [hx] at hfs
            simp at hfs
          · rw [hx] at hfs
            by_cases hg : midKey mid g < midKey mid a <;> simp [hg] at hfs
      subst hnil
      exact ⟨0, by simp, rfl, by simp, fun j hj hj0 => absurd hj0 (by omega)⟩
    | some g =>
      rw [hfs] at h
      have h' : (if midKey mid g < midKey mid f0 then some g else some f0) = some f := h
      by_cases hlt : midKey mid g < midKey mid f0
      · rw [if_pos hlt] at h'
        obtain rfl : g = f := by simpa using h'
        obtain ⟨i, hi, hget, hmin, hearly⟩ := ih g hfs
        refine ⟨i + 1, by simpa using Nat.succ_lt_succ hi, by simpa using hget, ?_, ?_⟩
        · intro x hx
          rcases List.mem_cons.mp hx with rfl | hx'
          · exact le_of_lt hlt
          · exact hmin x hx'
        · intro j hj hji
          cases j with
          | zero => simpa using hlt
          | succ j' =>
            have hj' : j' < fs.length := by simpa using hj
            have := hearly j' hj' (by omega)
            simpa using this
      · rw [if_neg hlt] at h'
        obtain rfl : f0 = f := by simpa using h'
        obtain ⟨i, hi, hget, hmin, _⟩ := ih g hfs
        refine ⟨0, by simp, rfl, ?_, fun j hj hj0 => absurd hj0 (by omega)⟩
        intro x hx
        rcases List.mem_cons.mp hx with rfl | hx'
        · exact le_refl _
        · exact le_trans (not_lt.mp hlt) (hmin x hx')

/-- The two frame-selection rules agree: the source's stable-sort-and-truncate
fallback picks exactly the spec's earliest nearest frame. -/
theorem selectFrames_eq_spec (s e : ℚ) (frames : List FrameDesc) :
    selectFrames s e frames = selectFramesSpec s e frames := by
  unfold selectFrames selectFramesSpec
  by_cases h : (overlapsOf s e frames).isEmpty
  · rw [if_pos h, if_pos h, mergeSort_take_one]
    cases nearestFrame ((s + e) / 2) frames <;> rfl
  · rw [if_neg h, if_neg h]

/-- Claim C1:.  `align_transcript_and_captions` produces, for each transcript
segment in order, a chunk whose `start`/`end` are the segment's and whose
selected frames are exactly the in-range frames (timestamps in `[s, e]`
inclusive), falling back — when none overlap and the frame list is non-empty —
to the single frame nearest the midpoint `(s+e)/2` with ties broken in favour
of the earliest frame, the first selected frame serving as the representative
(`alignSpec` is that description verbatim); the second conjunct checks that
`nearestFrame` is the earliest-nearest frame in the stated sense. -/
theorem align_transcript_and_captions_spec (video_id : String)
    (segs : List Seg) (frames : List FrameDesc) :
    align_transcript_and_captions video_id segs frames = alignSpec video_id segs frames ∧
    (∀ mid f, nearestFrame mid frames = some f →
      ∃ i, ∃ hi : i < frames.length, frames[i] = f ∧
        (∀ g ∈ frames, midKey mid f ≤ midKey mid g) ∧
        ∀ j (hj : j < frames.length), j < i → midKey mid f < midKey mid frames[j]) := by
  constructor
  · unfold align_transcript_and_captions alignSpec
    apply List.map_congr_left
    intro seg _
    simp only [selectFrames_eq_spec]
  · intro mid f h
    exact nearestFrame_earliest_nearest mid frames f h

/-- Claim C1: witness: a segment `[0, 2]` with both frames out of range; the
fallback picks the frame at timestamp `4` (distance `3` to the midpoint `1`,
against distance `4`). -/
theorem align_transcript_and_captions_spec_witness :
    align_transcript_and_captions "v" [⟨0, 2, "hi"⟩] [⟨"f1", 5, "a"⟩, ⟨"f2", 4, "b"⟩]
      = alignSpec "v" [⟨0, 2, "hi"⟩] [⟨"f1", 5, "a"⟩, ⟨"f2", 4, "b"⟩] ∧
    (∃ i, ∃ hi : i < ([⟨"f1", 5, "a"⟩, ⟨"f2", 4, "b"⟩] : List FrameDesc).length,
      ([⟨"f1", 5, "a"⟩, ⟨"f2", 4, "b"⟩] : List FrameDesc)[i] = ⟨"f2", 4, "b"⟩ ∧
      (∀ g ∈ ([⟨"f1", 5, "a"⟩, ⟨"f2", 4, "b"⟩] : List FrameDesc),
        midKey 1 ⟨"f2", 4, "b"⟩ ≤ midKey 1 g) ∧
      ∀ j (hj : j < ([⟨"f1", 5, "a"⟩, ⟨"f2", 4, "b"⟩] : List FrameDesc).length), j < i →
        midKey 1 ⟨"f2", 4, "b"⟩ < midKey 1 (([⟨"f1", 5, "a"⟩, ⟨"f2", 4, "b"⟩] :
          List FrameDesc)[j])) :=
  ⟨(align_transcript_and_captions_spec "v" [⟨0, 2, "hi"⟩]
      [⟨"f1", 5, "a"⟩, ⟨"f2", 4, "b"⟩]).1,
    (align_transcript_and_captions_spec "v" [⟨0, 2, "hi"⟩]
      [⟨"f1", 5, "a"⟩, ⟨"f2", 4, "b"⟩]).2 1 ⟨"f2", 4, "b"⟩
      (of_decide_eq_true (by with_unfolding_all rfl))⟩

/-- Claim C9:.  For every non-empty list of transcript segments and an empty
frame-description list, the aligner totally computes one chunk per segment,
each with empty caption and no representative frame (the embedding is a total
function: no exception is possible). -/
theorem align_empty_frames (video_id : String) (segs : List Seg) (hne : segs ≠ []) :
    (align_transcript_and_captions video_id segs []).length = segs.length ∧
    ∀ c ∈ align_transcript_and_captions video_id segs [],
      c.caption = "" ∧ c.frame_file = "" := by
  constructor
  · simp [align_transcript_and_captions]
  · intro c hc
    simp only [align_transcript_and_captions, List.mem_map] at hc
    obtain ⟨seg, _, rfl⟩ := hc
    have hsel : selectFrames seg.start seg.end_ ([] : List FrameDesc) = [] := by
      simp [selectFrames, overlapsOf]
    constructor
    · show String.intercalate " | "
        ((selectFrames seg.start seg.end_ []).map (·.caption)) = ""
      rw [hsel]
      rfl
    · show (match selectFrames seg.start seg.end_ [] with
        | [] => ""
        | f :: _ => f.frame_file) = ""
      rw [hsel]

/-- Claim C9: witness at one concrete segment. -/
theorem align_empty_frames_witness :
    ([⟨0, 1, "x"⟩] : List Seg) ≠ [] ∧
    ((align_transcript_and_captions "v" [⟨0, 1, "x"⟩] []).length = 1 ∧
      ∀ c ∈ align_transcript_and_captions "v" [⟨0, 1, "x"⟩] [],
        c.caption = "" ∧ c.frame_file = "") :=
  ⟨by simp, align_empty_frames "v" [⟨0, 1, "x"⟩] (by simp)⟩

/-- The frames a segment selects all come from the frame-description list. -/
theorem selectFrames_subset (s e : ℚ) (frames : List FrameDesc) :
    ∀ x ∈ selectFrames s e frames, x ∈ frames := by
  intro x hx
  simp only [selectFrames] at hx
  by_cases h : (overlapsOf s e frames).isEmpty
  · rw [if_pos h] at hx
    exact List.mem_mergeSort.mp (List.take_subset 1 _ hx)
  · rw [if_neg h] at hx
    exact List.mem_of_mem_filter hx

/-- Claim C7: (amended).  With the captioning toggle off, the captioning
collaborator is never invoked — the produced chunks are independent of it —
and every chunk's caption is the `" | "`-join of empty strings: empty when the
chunk selects at most one frame, and consisting of separator text only (never
caption text) when it selects two or more. -/
theorem ingest_captions_disabled (video_id : String) (transcript : List Seg)
    (captioner captioner' : String → String) (frame_files : List FrameFile) (fps : ℚ) :
    ingestChunks video_id transcript false captioner frame_files fps
      = ingestChunks video_id transcript false captioner' frame_files fps ∧
    ∀ c ∈ ingestChunks video_id transcript false captioner frame_files fps,
      ∃ n, c.caption = String.intercalate " | " (List.replicate n "") := by
  constructor
  · rfl
  · intro c hc
    simp only [ingestChunks, align_transcript_and_captions, List.mem_map] at hc
    obtain ⟨seg, _, rfl⟩ := hc
    have hall : ∀ f ∈ buildFrameDesc false captioner frame_files fps, f.caption = "" := by
      intro f hf
      simp only [buildFrameDesc, capMap, List.mem_map] at hf
      obtain ⟨fp, _, rfl⟩ := hf
      simp [capMapGet]
    refine ⟨(selectFrames seg.start seg.end_
      (buildFrameDesc false captioner frame_files fps)).length, ?_⟩
    show String.intercalate " | "
      ((selectFrames seg.start seg.end_
        (buildFrameDesc false captioner frame_files fps)).map (·.caption)) = _
    congr 1
    apply List.eq_replicate.mpr
    refine ⟨by simp, ?_⟩
    intro b hb
    simp only [List.mem_map] at hb
    obtain ⟨f, hf, rfl⟩ := hb
    exact hall f (selectFrames_subset _ _ _ f hf)

/-- Claim C7: witness: captions off, one in-range frame — the chunk's caption is
the empty join, and the output is independent of the captioning collaborator. -/
theorem ingest_captions_disabled_witness :
    ingestChunks "v" [⟨0, 2, "t"⟩] false (fun _ => "CAP") [⟨"frame_000001.jpg", 1⟩] 1
      = ingestChunks "v" [⟨0, 2, "t"⟩] false (fun _ => "X") [⟨"frame_000001.jpg", 1⟩] 1 ∧
    (∃ n, (⟨"v", 0, 2, "t", "", "frame_000001.jpg"⟩ : Chunk).caption
      = String.intercalate " | " (List.replicate n "")) :=
  ⟨(ingest_captions_disabled "v" [⟨0, 2, "t"⟩] (fun _ => "CAP") (fun _ => "X")
      [⟨"frame_000001.jpg", 1⟩] 1).1,
   (ingest_captions_disabled "v" [⟨0, 2, "t"⟩] (fun _ => "CAP") (fun _ => "X")
      [⟨"frame_000001.jpg", 1⟩] 1).2 ⟨"v", 0, 2, "t", "", "frame_000001.jpg"⟩
      (of_decide_eq_true (by with_unfolding_all rfl))⟩

/-- Claim C7: counterexample to the claim as stated: captions off, one segment
`[0, 2]` overlapping the two frames at timestamps `0` and `1` — the chunk's
caption is the separator string `" | "`, not the empty string. -/
theorem ingest_captions_disabled_cex :
    ingestChunks "v" [⟨0, 2, "t"⟩] false (fun _ => "CAP")
        [⟨"frame_000001.jpg", 1⟩, ⟨"frame_000002.jpg", 2⟩] 1
      = [⟨"v", 0, 2, "t", " | ", "frame_000001.jpg"⟩] ∧
    (" | " : String) ≠ "" :=
  ⟨by with_unfolding_all rfl, by decide⟩

/-- Claim C8: (amended).  The start of each ingest *resets* the shared
cancellation flag (pipeline.py 56), so a cancellation requested before the
ingest starts is erased: the run is independent of the initial flag value and,
with no in-run request, completes with one vector-store write.  Only a cancel
request arriving during the run is observed: if one arrives before any of the
seven pre-upsert stage boundaries, the run aborts with a Cancelled outcome and
zero vector-store writes. -/
theorem ingest_cancellation_semantics (req : ℕ → Bool) (b₁ b₂ : Bool) :
    ingestRun b₁ req = ingestRun b₂ req ∧
    ingestRun (request_cancel_ingest b₁) (fun _ => false) = (IngestOutcome.completed, 1) ∧
    (∀ i, i < 7 → req i = true → ingestRun b₁ req = (IngestOutcome.cancelled, 0)) := by
  refine ⟨rfl, rfl, ?_⟩
  intro i hi hreq
  unfold ingestRun
  cases hf : (List.range 7).find? (fun j => flagAt req j) with
  | some x => rfl
  | none =>
    exfalso
    have h6 : flagAt req 6 = true := by
      simp only [flagAt, List.any_eq_true]
      exact ⟨i, List.mem_range.mpr (by omega), hreq⟩
    have := List.find?_eq_none.mp hf 6 (by decide)
    simp [h6] at this

/-- Claim C8: witness: a cancel request arriving before boundary `3` aborts the
run with zero writes, and a pre-start request (initial flag `true`) is erased. -/
theorem ingest_cancellation_semantics_witness :
    ingestRun true (fun j => j == 3) = ingestRun false (fun j => j == 3) ∧
    ingestRun (request_cancel_ingest true) (fun _ => false) = (IngestOutcome.completed, 1) ∧
    ingestRun true (fun j => j == 3) = (IngestOutcome.cancelled, 0) :=
  ⟨(ingest_cancellation_semantics (fun j => j == 3) true false).1,
   (ingest_cancellation_semantics (fun j => j == 3) true false).2.1,
   (ingest_cancellation_semantics (fun j => j == 3) true false).2.2 3 (by decide) (by decide)⟩

/-- Claim C8: counterexample to the claim as stated: cancellation requested
*before* the ingest starts (initial flag set by `request_cancel_ingest`), no
in-run request — the run does not abort: it completes and performs the
vector-store write. -/
theorem ingest_cancel_before_start_cex :
    ingestRun (request_cancel_ingest false) (fun _ => false) = (IngestOutcome.completed, 1) ∧
    ingestRun (request_cancel_ingest false) (fun _ => false) ≠ (IngestOutcome.cancelled, 0) :=
  ⟨rfl, by decide⟩

theorem digitChar_toNat_sub (d : ℕ) (h : d < 10) : (Nat.digitChar d).toNat - 48 = d := by
  interval_cases d <;> decide

theorem decValue_append (ds : List Char) (c : Char) :
    decValue (ds ++ [c]) = 10 * decValue ds + (c.toNat - 48) := by
  simp [decValue, List.foldl_append]

theorem decValue_natDecimalDigits : ∀ n, decValue (natDecimalDigits n) = n := by
  intro n
  induction n using Nat.strong_induction_on with
  | _ n ih =>
    rw [natDecimalDigits]
    by_cases h : n < 10
    · rw [dif_pos h]
      simp [decValue, digitChar_toNat_sub n h]
    · rw [dif_neg h]
      rw [decValue_append, ih (n / 10) (Nat.div_lt_self (by omega) (by omega)),
        digitChar_toNat_sub (n % 10) (by omega)]
      omega

/-- Claim C6:.  Two networked-backend stores constructed (with the process-wide
base name) at distinct embedding dimensions get distinct collection names, so
their vectors are never stored in or searched from the same collection. -/
theorem qdrant_dimension_isolation (base : String) (d₁ d₂ : ℕ) (h : d₁ ≠ d₂) :
    (QdrantStore.init base d₁).collection ≠ (QdrantStore.init base d₂).collection := by
  intro hc
  apply h
  simp only [QdrantStore.init, collectionName] at hc
  have hdata := congrArg String.data hc
  simp only [String.data_append] at hdata
  have hdigits : natDecimalDigits d₁ = natDecimalDigits d₂ :=
    List.append_cancel_left hdata
  calc d₁ = decValue (natDecimalDigits d₁) := (decValue_natDecimalDigits d₁).symm
    _ = decValue (natDecimalDigits d₂) := by rw [hdigits]
    _ = d₂ := decValue_natDecimalDigits d₂

/-- Claim C6: witness at the two dimensions the source comments mention
(384 vs 768, qdrant_store.py 52). -/
theorem qdrant_dimension_isolation_witness :
    (QdrantStore.init "visionvault_chunks" 384).collection
      ≠ (QdrantStore.init "visionvault_chunks" 768).collection :=
  qdrant_dimension_isolation "visionvault_chunks" 384 768 (by decide)

theorem lowerHex_char_props (c : Char) (h : isLowerHex c = true) :
    c.isWhitespace = false ∧ c ≠ 'u' ∧ isBrace c = false ∧ (c == '-') = false ∧
    isHexChar c = true := by
  have h' : c ∈ lowerHexChars := by simpa [isLowerHex] using h
  simp only [lowerHexChars, List.append_assoc, List.cons_append, List.nil_append] at h'
  fin_cases h' <;> exact by decide

theorem dropWhile_eq_self_of_all {p : Char → Bool} :
    ∀ l : List Char, (∀ c ∈ l, p c = false) → l.dropWhile p = l := by
  intro l h
  cases l with
  | nil => rfl
  | cons c cs => simp [List.dropWhile_cons, h c (List.mem_cons_self c cs)]

theorem strip_pair_eq_self {p : Char → Bool} (l : List Char)
    (h : ∀ c ∈ l, p c = false) :
    ((l.dropWhile p).reverse.dropWhile p).reverse = l := by
  rw [dropWhile_eq_self_of_all l h,
    dropWhile_eq_self_of_all l.reverse (fun c hc => h c (List.mem_reverse.mp hc)),
    List.reverse_reverse]

theorem deleteAllAux_of_not_mem (p0 : Char) (ps : List Char) :
    ∀ (fuel : ℕ) (l : List Char), p0 ∉ l → deleteAllAux p0 ps fuel l = l := by
  intro fuel
  induction fuel with
  | zero => intro l _; cases l <;> rfl
  | succ fuel ih =>
    intro l h
    cases l with
    | nil => rfl
    | cons c cs =>
      rw [deleteAllAux, if_neg, ih cs (fun hc => h (List.mem_cons_of_mem c hc))]
      intro hpre
      rw [List.isPrefixOf_cons₂] at hpre
      have hc : p0 = c := by
        have := (Bool.and_eq_true _ _).mp hpre
        exact eq_of_beq this.1
      exact h (hc ▸ List.mem_cons_self p0 cs)

theorem deleteAll_of_not_mem (p0 : Char) (ps l : List Char) (h : p0 ∉ l) :
    deleteAll p0 ps l = l :=
  deleteAllAux_of_not_mem p0 ps l.length l h

theorem hexDigitVal_lt_16 (c : Char) (h : isLowerHex c = true) : hexDigitVal c < 16 := by
  have h' : c ∈ lowerHexChars := by simpa [isLowerHex] using h
  simp only [lowerHexChars, List.append_assoc, List.cons_append, List.nil_append] at h'
  fin_cases h' <;> exact by decide

theorem digitChar_hexDigitVal (c : Char) (h : isLowerHex c = true) :
    Nat.digitChar (hexDigitVal c) = c := by
  have h' : c ∈ lowerHexChars := by simpa [isLowerHex] using h
  simp only [lowerHexChars, List.append_assoc, List.cons_append, List.nil_append] at h'
  fin_cases h' <;> exact by decide

theorem toHexPad_acc : ∀ (w n : ℕ) (acc : List Char),
    toHexPad w n acc = toHexPad w n [] ++ acc := by
  intro w
  induction w with
  | zero => intro n acc; rfl
  | succ w ih =>
    intro n acc
    rw [toHexPad, ih (n / 16) (Nat.digitChar (n % 16) :: acc)]
    conv_rhs => rw [toHexPad, ih (n / 16) [Nat.digitChar (n % 16)]]
    simp

theorem fromHex_append (ds : List Char) (c : Char) :
    fromHex (ds ++ [c]) = 16 * fromHex ds + hexDigitVal c := by
  simp [fromHex, List.foldl_append]

theorem toHexPad_fromHex (ds : List Char) (h : ∀ c ∈ ds, isLowerHex c = true) :
    toHexPad ds.length (fromHex ds) [] = ds := by
  induction ds using List.reverseRecOn with
  | nil => rfl
  | append_singleton ds c ih =>
    rw [List.length_append, List.length_singleton, toHexPad, fromHex_append]
    have hc : isLowerHex c = true := h c (by simp)
    have hlt : hexDigitVal c < 16 := hexDigitVal_lt_16 c hc
    have hdiv : (16 * fromHex ds + hexDigitVal c) / 16 = fromHex ds := by omega
    have hmod : (16 * fromHex ds + hexDigitVal c) % 16 = hexDigitVal c := by omega
    rw [hdiv, hmod, toHexPad_acc, ih (fun x hx => h x (by simp [hx])),
      digitChar_hexDigitVal c hc]

theorem uuidFormat_parts (a b c d e : List Char) (ha : a.length = 8)
    (hb : b.length = 4) (hc : c.length = 4) (hd : d.length = 4) :
    uuidFormat (a ++ (b ++ (c ++ (d ++ e))))
      = a ++ '-' :: (b ++ '-' :: (c ++ '-' :: (d ++ '-' :: e))) := by
  unfold uuidFormat
  have h8 : (a ++ (b ++ (c ++ (d ++ e)))).take 8 = a := List.take_left' ha
  have hd8 : (a ++ (b ++ (c ++ (d ++ e)))).drop 8 = b ++ (c ++ (d ++ e)) :=
    List.drop_left' ha
  have hd12 : (a ++ (b ++ (c ++ (d ++ e)))).drop 12 = c ++ (d ++ e) := by
    have : (a ++ (b ++ (c ++ (d ++ e)))) = (a ++ b) ++ (c ++ (d ++ e)) := by simp
    rw [this]
    exact List.drop_left' (by simp [ha, hb])
  have hd16 : (a ++ (b ++ (c ++ (d ++ e)))).drop 16 = d ++ e := by
    have : (a ++ (b ++ (c ++ (d ++ e)))) = (a ++ b ++ c) ++ (d ++ e) := by simp
    rw [this]
    exact List.drop_left' (by simp [ha, hb, hc])
  have hd20 : (a ++ (b ++ (c ++ (d ++ e)))).drop 20 = e := by
    have : (a ++ (b ++ (c ++ (d ++ e)))) = (a ++ b ++ c ++ d) ++ e := by simp
    rw [this]
    exact List.drop_left' (by simp [ha, hb, hc, hd])
  rw [h8, hd8, hd12, hd16, hd20, List.take_left' hb, List.take_left' hc,
    List.take_left' hd]

/-- Claim C5: (amended).  Point identifier normalization: a supplied id `"42"`
is converted to the integer `42`; a supplied UUID string in canonical
lowercase hyphenated form is accepted and preserved unchanged; and a supplied
string that is neither numeric nor UUID-shaped is replaced by the
deterministic UUID `uuid5(fallback_key)` of the key built from
`(video_id, start, end, sequence index)` — the same id on every call with the
same payload fields and index, since `uuid5` is a pure hash. -/
theorem point_id_normalization (uuid5 : String → String) (key : String)
    (a b c d e : List Char) (ha : a.length = 8) (hb : b.length = 4)
    (hc : c.length = 4) (hd : d.length = 4) (he : e.length = 12)
    (hhex : ∀ ch ∈ a ++ b ++ c ++ d ++ e, isLowerHex ch = true) :
    as_qdrant_point_id uuid5 (some "42") key = .int 42 ∧
    as_qdrant_point_id uuid5 (some (canonicalUuid a b c d e)) key
      = .str (canonicalUuid a b c d e) ∧
    (∀ (video_id : String) (st en : ℚ) (i : ℕ) (s : String),
      pyStrip s.data ≠ [] → pyIsDigit (pyStrip s.data) = false →
      pyUuidCanonical (pyStrip s.data) = none →
      as_qdrant_point_id uuid5 (some s) (fallbackKey video_id st en i)
        = .str (uuid5 (fallbackKey video_id st en i))) := by
  have hA : ∀ ch ∈ a, isLowerHex ch = true := fun ch hm => hhex ch (by simp [hm])
  have hB : ∀ ch ∈ b, isLowerHex ch = true := fun ch hm => hhex ch (by simp [hm])
  have hC : ∀ ch ∈ c, isLowerHex ch = true := fun ch hm => hhex ch (by simp [hm])
  have hD : ∀ ch ∈ d, isLowerHex ch = true := fun ch hm => hhex ch (by simp [hm])
  have hE : ∀ ch ∈ e, isLowerHex ch = true := fun ch hm => hhex ch (by simp [hm])
  refine ⟨by with_unfolding_all rfl, ?_, ?_⟩
  · set L := a ++ '-' :: (b ++ '-' :: (c ++ '-' :: (d ++ '-' :: e))) with hL
    have hmem : ∀ ch ∈ L, isLowerHex ch = true ∨ ch = '-' := by
      intro ch hch
      rw [hL] at hch
      simp only [List.mem_append, List.mem_cons] at hch
      rcases hch with h | rfl | h | rfl | h | rfl | h | rfl | h
      · exact Or.inl (hA ch h)
      · exact Or.inr rfl
      · exact Or.inl (hB ch h)
      · exact Or.inr rfl
      · exact Or.inl (hC ch h)
      · exact Or.inr rfl
      · exact Or.inl (hD ch h)
      · exact Or.inr rfl
      · exact Or.inl (hE ch h)
    have hws : ∀ ch ∈ L, Char.isWhitespace ch = false := by
      intro ch hch
      rcases hmem ch hch with h | rfl
      · exact (lowerHex_char_props ch h).1
      · decide
    have hdata : (canonicalUuid a b c d e).data = L := rfl
    have hstrip : pyStrip L = L := strip_pair_eq_self L hws
    have hlen : L.length = 36 := by simp [hL, ha, hb, hc, hd, he]
    have hne : L ≠ [] := by
      intro h0
      rw [h0] at hlen
      simp at hlen
    have hdash : '-' ∈ L := by rw [hL]; simp
    have hdigitall : L.all Char.isDigit = false :=
      List.all_eq_false.mpr ⟨'-', hdash, by decide⟩
    have hu : 'u' ∉ L := by
      intro hmu
      rcases hmem 'u' hmu with h | h
      · exact absurd rfl (lowerHex_char_props 'u' h).2.1
      · exact absurd h (by decide)
    have hbrace : ∀ ch ∈ L, isBrace ch = false := by
      intro ch hch
      rcases hmem ch hch with h | rfl
      · exact (lowerHex_char_props ch h).2.2.1
      · decide
    have hfa : a.filter (fun ch => !(ch == '-')) = a :=
      List.filter_eq_self.mpr fun x hx => by
        simp [(lowerHex_char_props x (hA x hx)).2.2.2.1]
    have hfb : b.filter (fun ch => !(ch == '-')) = b :=
      List.filter_eq_self.mpr fun x hx => by
        simp [(lowerHex_char_props x (hB x hx)).2.2.2.1]
    have hfc : c.filter (fun ch => !(ch == '-')) = c :=
      List.filter_eq_self.mpr fun x hx => by
        simp [(lowerHex_char_props x (hC x hx)).2.2.2.1]
    have hfd : d.filter (fun ch => !(ch == '-')) = d :=
      List.filter_eq_self.mpr fun x hx => by
        simp [(lowerHex_char_props x (hD x hx)).2.2.2.1]
    have hfe : e.filter (fun ch => !(ch == '-')) = e :=
      List.filter_eq_self.mpr fun x hx => by
        simp [(lowerHex_char_props x (hE x hx)).2.2.2.1]
    have h4 : L.filter (fun ch => !(ch == '-')) = a ++ (b ++ (c ++ (d ++ e))) := by
      rw [hL]
      simp only [List.filter_append, List.filter_cons]
      simp [hfa, hfb, hfc, hfd, hfe]
    have h5 : (a ++ (b ++ (c ++ (d ++ e)))).length = 32 := by
      simp [ha, hb, hc, hd, he]
    have hHlower : ∀ x ∈ a ++ (b ++ (c ++ (d ++ e))), isLowerHex x = true := by
      intro x hx
      simp only [List.mem_append] at hx
      rcases hx with h | h | h | h | h
      · exact hA x h
      · exact hB x h
      · exact hC x h
      · exact hD x h
      · exact hE x h
    have h6 : (a ++ (b ++ (c ++ (d ++ e)))).all isHexChar = true :=
      List.all_eq_true.mpr fun x hx => (lowerHex_char_props x (hHlower x hx)).2.2.2.2
    have hform : pyUuidCanonical L = some (canonicalUuid a b c d e) := by
      simp only [pyUuidCanonical]
      rw [deleteAll_of_not_mem _ _ _ hu, deleteAll_of_not_mem _ _ _ hu,
        show stripBraces L = L from strip_pair_eq_self L hbrace, h4,
        if_pos ⟨h5, h6⟩, show (32 : ℕ) = (a ++ (b ++ (c ++ (d ++ e)))).length from h5.symm,
        toHexPad_fromHex _ hHlower, uuidFormat_parts a b c d e ha hb hc hd]
      rfl
    simp only [as_qdrant_point_id, hdata, hstrip]
    rw [if_neg (by simp only [List.isEmpty_iff]; exact hne),
      if_neg (by simp [pyIsDigit, hdigitall]), hform]
  · intro video_id st en i s hs1 hs2 hs3
    simp only [as_qdrant_point_id]
    rw [if_neg (by simp only [List.isEmpty_iff]; exact hs1),
      if_neg (by simp [hs2]), hs3]

/-- Claim C5: witness: the three normalization behaviours at concrete inputs
(`"42"`, a canonical UUID, and an arbitrary non-UUID non-numeric string with
the `(video_id, start, end, index)`-derived fallback key). -/
theorem point_id_normalization_witness :
    as_qdrant_point_id (fun k => k) (some "42") "key" = .int 42 ∧
    as_qdrant_point_id (fun k => k)
        (some (canonicalUuid "550e8400".data "e29b".data "41d4".data "a716".data
          "446655440000".data)) "key"
      = .str (canonicalUuid "550e8400".data "e29b".data "41d4".data "a716".data
          "446655440000".data) ∧
    as_qdrant_point_id (fun k => k) (some "not-a-uuid!") (fallbackKey "vid" 0 1 3)
      = .str ((fun k => k) (fallbackKey "vid" 0 1 3)) :=
  have h := point_id_normalization (fun k => k) "key" "550e8400".data "e29b".data
    "41d4".data "a716".data "446655440000".data (by decide) (by decide) (by decide)
    (by decide) (by decide) (by decide)
  ⟨h.1, h.2.1, h.2.2 "vid" 0 1 3 "not-a-uuid!" (by decide) (by decide)
    (by with_unfolding_all rfl)⟩

/-- Claim C5: counterexample to the claim as stated: the well-formed UUID string
`"550E8400-E29B-41D4-A716-446655440000"` (uppercase) is accepted but *not*
preserved unchanged — `str(uuid.UUID(s))` re-renders it in lowercase. -/
theorem point_id_uuid_not_preserved_cex :
    as_qdrant_point_id (fun k => k) (some "550E8400-E29B-41D4-A716-446655440000") "key"
      = .str "550e8400-e29b-41d4-a716-446655440000" ∧
    ("550e8400-e29b-41d4-a716-446655440000" : String)
      ≠ "550E8400-E29B-41D4-A716-446655440000" :=
  ⟨by with_unfolding_all rfl, by decide⟩

end VisionVault
